import Mathlib

/-!
# Verification of the csdiff JSON-decoding and defect-correlation core

A shallow embedding, in Lean 4, of the decoding and correlation logic of the
csdiff repository:

* `src/parser-json.cc` — the JSON parser: format sniffing in the
  `JsonParser` constructor, the `getNext` read loop, and the two tree
  decoders whose bodies live in that file (`GccTreeDecoder` for GCC's JSON
  diagnostics, `ShellCheckTreeDecoder` for ShellCheck's JSON output);
* `linkify.cc` — the defect correlation queue (`DefQueue`), the query
  stream parser (`DefQueryParser`), and the driver `main`.

Boost property trees are modelled by `Ptree`; the C++ standard maps keyed by
strings are modelled by association lists with unique keys, with every
operation (find / update-in-place / erase) acting on the first occurrence of
a key, which coincides with `std::map` behaviour on the unique-key states the
program actually constructs.
-/

namespace Csdiff

/-! ## Property trees

A boost `ptree` node holds a data string and an ordered list of keyed
children (arrays are represented, as `read_json` does, by children with
empty keys). -/

inductive Ptree where
  | node (data : String) (children : List (String × Ptree))

def Ptree.data : Ptree → String
  | .node d _ => d

def Ptree.children : Ptree → List (String × Ptree)
  | .node _ cs => cs

/-- `ptree::find(key)`: the first child carrying the given key, if any. -/
def Ptree.find : Ptree → String → Option Ptree
  | .node _ cs, key => go cs key
where go : List (String × Ptree) → String → Option Ptree
  | [], _ => none
  | (k, c) :: rest, key => if k = key then some c else go rest key

/-- `ptree::empty()`: whether the node has no children. -/
def Ptree.isLeaf (t : Ptree) : Bool := t.children.isEmpty

/-- Modelled from the spec: `findChildOf(&dst, node, key)` (declared outside
`src/`) tests "whether the root contains a child named `key`" and hands back
that child, i.e. the first child carrying the key. -/
def findChildOf (t : Ptree) (key : String) : Option Ptree :=
  t.find key

/-- lexical cast of a ptree data string to `int`: an optional sign followed
by one or more decimal digits, nothing else. -/
def readIntData (s : String) : Option Int :=
  let core : List Char → Option Nat := fun cs =>
    if cs = [] then none
    else if cs.all Char.isDigit then
      some (cs.foldl (fun a c => a * 10 + (c.toNat - 48)) 0)
    else none
  match s.toList with
  | '-' :: rest => (core rest).map (fun n => -(n : Int))
  | '+' :: rest => (core rest).map (fun n => (n : Int))
  | cs => (core cs).map (fun n => (n : Int))

/-- Modelled from the spec: `valueOf<std::string>(node, key, dflt)` (declared
outside `src/`) is the "get optional field with typed default" accessor — the
data of the child named `key`, or `dflt` when absent. -/
def valueOfS (t : Ptree) (key dflt : String) : String :=
  match t.find key with
  | some c => c.data
  | none => dflt

/-- Modelled from the spec: `valueOf<int>(node, key, dflt)` — the data of the
child named `key` read as an integer, or `dflt` when the child is absent or
its data does not convert. -/
def valueOfI (t : Ptree) (key : String) (dflt : Int) : Int :=
  match t.find key with
  | some c => (readIntData c.data).getD dflt
  | none => dflt

/-! ## Canonical defect model -/

/-- One diagnostic event of a defect's trace (`DefEvent`).  The default
constructor leaves the kind label and texts empty and positions zero. -/
structure DefEvent where
  event : String := ""
  fileName : String := ""
  line : Int := 0
  column : Int := 0
  msg : String := ""
deriving Repr, DecidableEq

/-- One normalized finding (`Defect`): a checker class, an ordered event
trace and an optional CWE identifier (0 = none). -/
structure Defect where
  defClass : String := ""
  events : List DefEvent := []
  cwe : Int := 0
deriving Repr, DecidableEq

/-! ## GCC tree decoder (`GccTreeDecoder`, `gccReadEvent`) -/

/-- Modelled from the spec: the `GccPostProcessor` (defined in
`parser-gcc.cc`, outside `src/`) is an external, pluggable rule set; the
spec's worked CompilerDiagnostics example shows it yielding the assembled
defect unchanged, so it is modelled as the identity. -/
def gccPostProc (d : Defect) : Defect := d

/-- `gccReadEvent`: decode one GCC diagnostic node into an event, starting
from a default-constructed `DefEvent` (as both call sites do).  Returns
`none` exactly when the mandatory "kind" field is absent or empty. -/
def gccReadEvent (evtNode : Ptree) : Option DefEvent :=
  let evtName := valueOfS evtNode "kind" ""
  if evtName = "" then none
  else
    let e0 : DefEvent := { event := evtName, fileName := "<unknown>" }
    let e1 : DefEvent :=
      match findChildOf evtNode "locations" with
      | some locs =>
        if locs.isLeaf then e0
        else
          match locs.children with
          | [] => e0
          | (_, loc0) :: _ =>
            match findChildOf loc0 "caret" with
            | some caret =>
              { e0 with
                fileName := valueOfS caret "file" "<unknown>"
                line := valueOfI caret "line" 0
                column := valueOfI caret "byte-column" 0 }
            | none => e0
      | none => e0
    let msg0 := valueOfS evtNode "message" "<unknown>"
    let opt := valueOfS evtNode "option" ""
    let msg := if opt = "" then msg0 else msg0 ++ " [" ++ opt ++ "]"
    some { e1 with msg := msg }

/-- The children loop of `GccTreeDecoder::readNode`: append each child node
that decodes to an event, skipping the rest. -/
def gccChildEvents (children : List Ptree) (acc : List DefEvent) : List DefEvent :=
  children.foldl
    (fun evts evtNode =>
      match gccReadEvent evtNode with
      | some evt => evts ++ [evt]
      | none => evts)
    acc

/-- The elements of a defect node's "children" collection (an absent
collection iterates as none at all). -/
def gccChildNodes (defNode : Ptree) : List Ptree :=
  match findChildOf defNode "children" with
  | some children => children.children.map Prod.snd
  | none => []

/-- `GccTreeDecoder::readNode` applied to the current node: `none` when the
key event's "kind" field is empty (the C++ returns `false`), otherwise the
assembled defect after post-processing. -/
def GccTreeDecoder.decodeNode (defNode : Ptree) : Option Defect :=
  match gccReadEvent defNode with
  | none => none
  | some keyEvt =>
    let events := gccChildEvents (gccChildNodes defNode) [keyEvt]
    let cwe :=
      match findChildOf defNode "metadata" with
      | some meta => valueOfI meta "cwe" 0
      | none => 0
    some (gccPostProc { defClass := "COMPILER_WARNING", events := events, cwe := cwe })

/-- The caller's read loop (`while (parser.getNext(&def))`) over the GCC
decoder's cursor: `readNode` pops the cursor and `getNext` returns its
boolean result directly, so the first node that fails to decode ends the
sequence. -/
def gccDecodeAll : List Ptree → List Defect
  | [] => []
  | n :: rest =>
    match GccTreeDecoder.decodeNode n with
    | some d => d :: gccDecodeAll rest
    | none => []

/-! ## ShellCheck tree decoder (`ShellCheckTreeDecoder`, `scReadEvent`) -/

/-- `scReadEvent`: decode one ShellCheck comment node; `none` exactly when
the mandatory "level" field is absent or empty. -/
def scReadEvent (evtNode : Ptree) : Option DefEvent :=
  let evtName := valueOfS evtNode "level" ""
  if evtName = "" then none
  else
    let msg0 := valueOfS evtNode "message" "<unknown>"
    let code := valueOfS evtNode "code" ""
    let msg := if code = "" then msg0 else msg0 ++ " [SC" ++ code ++ "]"
    some
      { event := evtName
        fileName := valueOfS evtNode "file" "<unknown>"
        line := valueOfI evtNode "line" 0
        column := valueOfI evtNode "byte-column" 0
        msg := msg }

/-- `ShellCheckTreeDecoder::readNode` applied to the current node. -/
def ShellCheckTreeDecoder.decodeNode (defNode : Ptree) : Option Defect :=
  match scReadEvent defNode with
  | none => none
  | some keyEvt =>
    some (gccPostProc { defClass := "SHELLCHECK_WARNING", events := [keyEvt], cwe := 0 })

/-- The caller's read loop over the ShellCheck decoder's cursor. -/
def scDecodeAll : List Ptree → List Defect
  | [] => []
  | n :: rest =>
    match ShellCheckTreeDecoder.decodeNode n with
    | some d => d :: scDecodeAll rest
    | none => []

/-! ## Format sniffing (`JsonParser::JsonParser`) -/

inductive DecoderKind where
  | simple | cov | sarif | shellcheck | gcc
deriving Repr, DecidableEq

/-- Outcome of the constructor's format recognition: an empty document
returns early with no decoder; otherwise the marker tests run in their fixed
order, each selecting a decoder together with the node handed to
`readRoot`; no marker at all throws `ptree_error("unknown JSON format")`. -/
inductive SniffOutcome where
  | emptyDoc
  | selected (k : DecoderKind) (node : Ptree)
  | formatError

/-- The recognition sequence of `JsonParser::JsonParser`. -/
def sniffFormat (root : Ptree) : SniffOutcome :=
  match root.children with
  | [] => .emptyDoc
  | (_, first) :: _ =>
    match findChildOf root "defects" with
    | some n => .selected .simple n
    | none =>
      match findChildOf root "issues" with
      | some n => .selected .cov n
      | none =>
        match findChildOf root "runs" with
        | some n => .selected .sarif n
        | none =>
          match findChildOf root "comments" with
          | some n => .selected .shellcheck n
          | none =>
            if (first.find "kind").isSome then .selected .gcc root
            else .formatError

/-- Whether `root` has a child with the given key (the marker predicate the
sniffing order is specified in terms of). -/
def hasChild (t : Ptree) (key : String) : Prop :=
  (t.find key).isSome

instance (t : Ptree) (key : String) : Decidable (hasChild t key) := by
  unfold hasChild; infer_instance

/-- State of a constructed `JsonParser`: the selected decoder (null when the
document was empty or unrecognized), the cursor over the defect-bearing
collection (modelled from the spec: `readRoot` stores the node's element
list), and the input's error flag. -/
structure JPState where
  decoder : Option DecoderKind
  nodes : List Ptree
  inputError : Bool

/-- `JsonParser::JsonParser`: parse result of the constructor on an already
syntactically-parsed document.  An unrecognized format throws, which the
constructor catches by flagging the input error. -/
def JsonParser.init (root : Ptree) : JPState :=
  match sniffFormat root with
  | .emptyDoc => ⟨none, [], false⟩
  | .selected k node => ⟨some k, node.children.map Prod.snd, false⟩
  | .formatError => ⟨none, [], true⟩

/-- Outcome of one `JsonParser::getNext` call.  `nullDeref` marks the
undefined behaviour of calling `d->decoder->readNode(def)` through a null
`unique_ptr` — `getNext` performs no null check. -/
inductive GetNextOutcome where
  | nullDeref
  | eof
  | yielded (d : Defect)
deriving Repr, DecidableEq

/-- One `JsonParser::getNext` call, parameterized by the virtual `readNode`
of whichever decoder was selected (the dynamic dispatch).  The selected
decoders of this file (`GccTreeDecoder.decodeNode`, pop one cursor node) are
instances; the three decoders defined outside `src/` are covered by the
quantification. -/
def JsonParser.getNextWith
    (readNode : List Ptree → Option Defect × List Ptree)
    (st : JPState) : GetNextOutcome × JPState :=
  match st.decoder with
  | none => (.nullDeref, st)
  | some _ =>
    let (r, nodes') := readNode st.nodes
    match r with
    | some d => (.yielded d, { st with nodes := nodes' })
    | none => (.eof, { st with nodes := nodes' })

/-! ## Defect correlation queue (`DefQueue`, linkify.cc)

`std::map` keyed by strings is modelled by an association list with unique
keys; find / update / erase all act on the first occurrence of a key, which
agrees with `std::map` on unique-key states. -/

/-- Look up the first entry with the given key (`map::find`). -/
def alistFind? {α : Type} (k : String) : List (String × α) → Option α
  | [] => none
  | (k0, v) :: rest => if k0 = k then some v else alistFind? k rest

/-- `map::operator[]` followed by an in-place mutation `f` of the mapped
value: update the first entry for `k`, or append a fresh entry built from
the value-type's default `dflt` when no entry exists. -/
def alistUpdate {α : Type} (k : String) (dflt : α) (f : α → α) :
    List (String × α) → List (String × α)
  | [] => [(k, f dflt)]
  | (k0, v) :: rest =>
    if k0 = k then (k0, f v) :: rest else (k0, v) :: alistUpdate k dflt f rest

/-- `map::erase(iterator)` of the entry `find` located: remove the first
entry with key `k`. -/
def alistErase {α : Type} (k : String) : List (String × α) → List (String × α)
  | [] => []
  | (k0, v) :: rest => if k0 = k then rest else (k0, v) :: alistErase k rest

/-- Writing through the iterator `find` returned: replace the mapped value
of the first entry with key `k`. -/
def alistSet {α : Type} (k : String) (v : α) : List (String × α) → List (String × α)
  | [] => []
  | (k0, w) :: rest => if k0 = k then (k0, v) :: rest else (k0, w) :: alistSet k v rest

abbrev TDefList := List Defect
abbrev TDefByFile := List (String × TDefList)
abbrev TDefByClass := List (String × TDefByFile)

/-- `def.msgs.front().fileName`: the file name of the defect's key event. -/
def keyFileName (d : Defect) : String :=
  ((d.events.head?.getD {}).fileName)

/-- `DefQueue::hashDefect`, with the singleton `MsgFilter::filterPath` made
an explicit parameter `filt` (the same function is used at insertion and
lookup time): file the defect under its class and its key event's
normalized file name, appending at the back of the per-key list. -/
def DefQueue.hashDefect (filt : String → String) (d : Defect) (stor : TDefByClass) :
    TDefByClass :=
  alistUpdate d.defClass []
    (fun row => alistUpdate (filt (keyFileName d)) [] (fun col => col ++ [d]) row)
    stor

/-- `DefQueue::lookup`: find the class row, then the normalized-file column,
pop the front defect, and prune the column and then the row if they became
empty.  The `row.empty()` re-check after a successful column `find` and the
empty-column case mirror the source; both are unreachable on well-formed
states. -/
def DefQueue.lookup (filt : String → String) (checker fileName : String)
    (stor : TDefByClass) : Option (Defect × TDefByClass) :=
  match alistFind? checker stor with
  | none => none
  | some row =>
    if row.isEmpty then none
    else
      let path := filt fileName
      match alistFind? path row with
      | none => none
      | some col =>
        if row.isEmpty then none
        else
          match col with
          | [] => none
          | dst :: colRest =>
            if colRest.isEmpty then
              let row' := alistErase path row
              if row'.isEmpty then some (dst, alistErase checker stor)
              else some (dst, alistSet checker row' stor)
            else
              some (dst, alistSet checker (alistSet path colRest row) stor)

/-- `DefQueue::empty`. -/
def DefQueue.isEmpty (stor : TDefByClass) : Bool := stor.isEmpty

/-- The list of defects queued under one (class, normalized file) key. -/
def queueAt (checker path : String) (stor : TDefByClass) : TDefList :=
  match alistFind? checker stor with
  | none => []
  | some row => (alistFind? path row).getD []

/-- Number of occurrences of a given defect in a row. -/
def countInRow (x : Defect) (row : TDefByFile) : Nat :=
  (row.map (fun p => p.2.count x)).sum

/-- Number of occurrences of a given defect anywhere in the queue. -/
def countDef (x : Defect) (stor : TDefByClass) : Nat :=
  (stor.map (fun p => countInRow x p.2)).sum

/-- Total number of defects queued. -/
def totalCount (stor : TDefByClass) : Nat :=
  (stor.map (fun p => (p.2.map (fun q => q.2.length)).sum)).sum

/-- The keys of an association list are pairwise distinct (as `std::map`
guarantees). -/
def KeysNodup {α : Type} (l : List (String × α)) : Prop :=
  (l.map Prod.fst).Nodup

/-- The correlation queue's structural invariant: unique keys at both
levels, and every present key (outer or inner) maps to a non-empty
container. -/
def QueueInv (stor : TDefByClass) : Prop :=
  KeysNodup stor ∧
    ∀ p ∈ stor, KeysNodup p.2 ∧ p.2 ≠ [] ∧ ∀ q ∈ p.2, q.2 ≠ []

instance (stor : TDefByClass) : Decidable (QueueInv stor) := by
  unfold QueueInv KeysNodup
  infer_instance

/-! ## Query stream parser (`DefQueryParser`) -/

/-- One parsed query row. -/
structure QRow where
  cid : Int
  defClass : String
  fileName : String
deriving Repr, DecidableEq

/-- `boost::lexical_cast<int>`: optional sign, one or more digits, the whole
string, within the 32-bit `int` range. -/
def parseCid (s : String) : Option Int :=
  (readIntData s).bind
    (fun v => if -(2 ^ 31) ≤ v ∧ v < 2 ^ 31 then some v else none)

/-- `boost::split(tokens, line, is_any_of(","))` on the underlying character
list: an empty input gives one empty token, and every ',' opens a new
token. -/
def splitChars : List Char → List (List Char)
  | [] => [[]]
  | c :: rest =>
    let r := splitChars rest
    if c = ',' then [] :: r
    else
      match r with
      | [] => [[c]]
      | g :: gs => (c :: g) :: gs

/-- The tokens of one query line. -/
def splitLine (line : String) : List String :=
  (splitChars line.toList).map List.asString

/-- Parser state: the lines still unread on `std::cin`, the 1-based line
counter, the cumulative error flag, whether the stream has failed (a failed
`getline` leaves `std::cin` evaluating false), and the diagnostics printed
so far as (line number, message) pairs. -/
structure QPState where
  lines : List String
  lineno : Nat
  hasError : Bool
  failed : Bool
  diags : List (Nat × String)
deriving Repr, DecidableEq

/-- `DefQueryParser::getNext`: the error recovery loop `while (std::cin)`
around `parse`.  `parse` reads a line (failing — and failing the stream — at
end of input), splits it on ',', demands at least 3 fields and an integer
first field, and otherwise reports the line and lets the loop retry; each
`parse` failure sets the cumulative error flag, including the final failure
at end of input. -/
def DefQueryParser.getNext (st : QPState) : Option QRow × QPState :=
  if st.failed then (none, st)
  else go st.lines st.lineno st.hasError st.diags
where
  go : List String → Nat → Bool → List (Nat × String) → Option QRow × QPState
  | [], n, _, ds =>
    -- getline fails: parse returns false, hasError_ is set, the loop
    -- re-tests the now-failed stream and getNext returns false
    (none, ⟨[], n, true, true, ds⟩)
  | line :: rest, n, e, ds =>
    let n' := n + 1
    match splitLine line with
    | t0 :: t1 :: t2 :: _ =>
      match parseCid t0 with
      | none => go rest n' true (ds ++ [(n', "failed to parse CID")])
      | some cid => (some ⟨cid, t1, t2⟩, ⟨rest, n', e, false, ds⟩)
    | _ => go rest n' true (ds ++ [(n', "not enough fields at the line")])

/-! ## The linkify driver (`main` of linkify.cc) -/

/-- The query loop of `main`: drain the query stream, resolving each row
against the queue; a failed lookup files the row among the unmatched ones,
a successful one removes the defect and links it. -/
def queryLoop (filt : String → String) (st : QPState) (stor : TDefByClass)
    (acc : List (Int × Defect)) (unm : List QRow) :
    List (Int × Defect) × List QRow × TDefByClass × QPState :=
  match h : DefQueryParser.getNext st with
  | (none, st') => (acc, unm, stor, st')
  | (some row, st') =>
    match DefQueue.lookup filt row.defClass row.fileName stor with
    | none => queryLoop filt st' stor acc (unm ++ [row])
    | some (d, stor') => queryLoop filt st' stor' (acc ++ [(row.cid, d)]) unm
termination_by st.lines.length
decreasing_by
  all_goals
    have aux : ∀ ls n e ds r s,
        DefQueryParser.getNext.go ls n e ds = (some r, s) →
          s.lines.length < ls.length := by
      intro ls
      induction ls with
      | nil =>
        intro n e ds r s hg
        simp [DefQueryParser.getNext.go] at hg
      | cons line rest ih =>
        intro n e ds r s hg
        simp only [DefQueryParser.getNext.go] at hg
        split at hg
        · split at hg
          · exact Nat.lt_trans (ih _ _ _ _ _ hg) (Nat.lt_succ_self _)
          · injection hg with hg1 hg2
            subst hg2
            simp
        · exact Nat.lt_trans (ih _ _ _ _ _ hg) (Nat.lt_succ_self _)
  all_goals
    unfold DefQueryParser.getNext at h
  all_goals
    split at h
  all_goals first
    | simp at h
    | exact aux st.lines st.lineno st.hasError st.diags _ _ h

/-- Observable outcome of one linkify run: the linkified (cid, defect)
pairs, the unmatched queries, the residual queue, the flags entering the
exit status, and the query parser's per-line diagnostics. -/
structure RunOutcome where
  linkified : List (Int × Defect)
  unmatched : List QRow
  finalStor : TDefByClass
  lookupError : Bool
  qError : Bool
  defError : Bool
  qDiags : List (Nat × String)

/-- `main` of linkify.cc after the .err file has been read into `defects`
(the text-format `Parser` lives outside this repository slice; its error
flag enters as `defErr`): hash every defect, drain the query stream, flag
`lookupError` when the queue is non-empty afterwards ("offset detected"). -/
def linkifyMain (filt : String → String) (defects : List Defect)
    (qLines : List String) (defErr : Bool) : RunOutcome :=
  let stor0 := defects.foldl (fun s d => DefQueue.hashDefect filt d s) []
  let r := queryLoop filt ⟨qLines, 0, false, false, []⟩ stor0 [] []
  { linkified := r.1
    unmatched := r.2.1
    finalStor := r.2.2.1
    lookupError := !(DefQueue.isEmpty r.2.2.1)
    qError := r.2.2.2.hasError
    defError := defErr
    qDiags := r.2.2.2.diags }

/-- The exit status computed at the end of `main`:
`lookupError || qParser.hasError() || defParser.hasError()`. -/
def exitFailureOf (r : RunOutcome) : Bool :=
  r.lookupError || r.qError || r.defError

/-! ## Concrete documents used as test vectors -/

/-- The caret node of the spec's CompilerDiagnostics example. -/
def caretA : Ptree :=
  .node "" [("file", .node "a.c" []), ("line", .node "5" []),
            ("byte-column", .node "2" [])]

/-- The spec's CompilerDiagnostics example element:
`{"kind":"warning","locations":[{"caret":{...}}],"message":"m","option":"-Wfoo"}`. -/
def gccElemA : Ptree :=
  .node "" [("kind", .node "warning" []),
            ("locations", .node "" [("", .node "" [("caret", caretA)])]),
            ("message", .node "m" []),
            ("option", .node "-Wfoo" [])]

/-- A GCC diagnostic element whose mandatory "kind" field is empty. -/
def gccBadElem : Ptree :=
  .node "" [("kind", .node "" []), ("message", .node "broken" [])]

/-- The expected decoded event of the spec's worked example. -/
def gccEventA : DefEvent :=
  { event := "warning", fileName := "a.c", line := 5, column := 2, msg := "m [-Wfoo]" }

/-- A ShellCheck comment element whose mandatory "level" field is missing. -/
def scBadElem : Ptree :=
  .node "" [("message", .node "no level here" [])]

/-- A well-formed ShellCheck comment element. -/
def scGoodElem : Ptree :=
  .node "" [("level", .node "warning" []), ("file", .node "s.sh" []),
            ("line", .node "3" []), ("byte-column", .node "1" []),
            ("message", .node "quote this" []), ("code", .node "2086" [])]

/-- A GCC diagnostic node carrying only a kind (no locations, no message). -/
def gccNoLocElem : Ptree :=
  .node "" [("kind", .node "note" [])]

/-- A well-formed child of a "children" collection. -/
def gccChildGood : Ptree :=
  .node "" [("kind", .node "note" []), ("message", .node "child note" [])]

/-- A malformed child of a "children" collection (no "kind" field). -/
def gccChildBad : Ptree :=
  .node "" [("message", .node "kindless child" [])]

/-- A GCC diagnostic element whose "children" collection holds one malformed
and one well-formed element. -/
def gccElemWithChildren : Ptree :=
  .node "" [("kind", .node "warning" []),
            ("message", .node "top" []),
            ("children", .node "" [("", gccChildBad), ("", gccChildGood)])]

/-- A root recognizable as the csdiff-native format. -/
def rootWithDefects : Ptree :=
  .node "" [("defects", .node "" [("", .node "" [])])]

/-! ### Correlation-queue test vectors -/

def defA : Defect :=
  { defClass := "X", events := [{ event := "w", fileName := "f", line := 1, msg := "A" }] }

def defB : Defect :=
  { defClass := "X", events := [{ event := "w", fileName := "f", line := 2, msg := "B" }] }

def defC : Defect :=
  { defClass := "X", events := [{ event := "w", fileName := "f", line := 3, msg := "C" }] }

def defD : Defect :=
  { defClass := "Y", events := [{ event := "w", fileName := "g", line := 4, msg := "D" }] }

def defE : Defect :=
  { defClass := "Y", events := [{ event := "w", fileName := "g", line := 5, msg := "E" }] }

/-- A queue state already holding `defC` under the key ("X", "f"). -/
def queueWithC : TDefByClass := [("X", [("f", [defC])])]

/-- A queue state already holding `defE` under the key ("Y", "g"). -/
def queueWithE : TDefByClass := [("Y", [("g", [defE])])]

/-! # Theorems -/

/-- The children loop of `GccTreeDecoder::readNode` appends exactly the
decodable children, in document order. -/
theorem gccChildEvents_eq (nodes : List Ptree) (acc : List DefEvent) :
    gccChildEvents nodes acc = acc ++ nodes.filterMap gccReadEvent := by
  induction nodes generalizing acc with
  | nil => simp [gccChildEvents]
  | cons n ns ih =>
    unfold gccChildEvents at ih ⊢
    simp only [List.foldl_cons]
    cases h : gccReadEvent n <;> simp [h, ih]

/-- C1 (amended): a record whose mandatory kind/level field is empty or
absent yields no defect, and the decode sequence halts there — `readNode`
returns false, which `JsonParser::getNext` hands to the caller as
end-of-sequence, so no subsequent record (well-formed or not) is yielded. -/
theorem empty_kind_rejects_and_halts :
    (∀ (n : Ptree) (rest : List Ptree), valueOfS n "kind" "" = "" →
      GccTreeDecoder.decodeNode n = none ∧ gccDecodeAll (n :: rest) = []) ∧
    (∀ (n : Ptree) (rest : List Ptree), valueOfS n "level" "" = "" →
      ShellCheckTreeDecoder.decodeNode n = none ∧ scDecodeAll (n :: rest) = []) := by
  constructor
  · intro n rest h
    have hev : gccReadEvent n = none := by
      unfold gccReadEvent
      rw [h]
      simp
    have hdn : GccTreeDecoder.decodeNode n = none := by
      unfold GccTreeDecoder.decodeNode
      rw [hev]
    exact ⟨hdn, by unfold gccDecodeAll; rw [hdn]⟩
  · intro n rest h
    have hev : scReadEvent n = none := by
      unfold scReadEvent
      rw [h]
      simp
    have hdn : ShellCheckTreeDecoder.decodeNode n = none := by
      unfold ShellCheckTreeDecoder.decodeNode
      rw [hev]
    exact ⟨hdn, by unfold scDecodeAll; rw [hdn]⟩

/-- C1 (counterexample): a GCC document whose first record has an empty
"kind" and whose second record is well-formed (it decodes on its own)
yields NO defects at all — the well-formed record after the rejected one is
not yielded, contrary to the claim. -/
theorem empty_kind_halts_sequence_cex :
    valueOfS gccBadElem "kind" "" = "" ∧
    GccTreeDecoder.decodeNode gccElemA =
      some { defClass := "COMPILER_WARNING", events := [gccEventA], cwe := 0 } ∧
    gccDecodeAll [gccBadElem, gccElemA] = [] := by
  decide

/-- C1 (witness): the amended theorem applied to the concrete rejected
records. -/
theorem empty_kind_rejects_and_halts_witness :
    (GccTreeDecoder.decodeNode gccBadElem = none ∧ gccDecodeAll [gccBadElem] = []) ∧
    (ShellCheckTreeDecoder.decodeNode scBadElem = none ∧ scDecodeAll [scBadElem] = []) :=
  ⟨empty_kind_rejects_and_halts.1 gccBadElem [] (by decide),
   empty_kind_rejects_and_halts.2 scBadElem [] (by decide)⟩

/-- C7: on a syntactically valid but empty document the constructor selects
no decoder and records no error, yet `JsonParser::getNext` dereferences the
null decoder pointer unconditionally — undefined behaviour instead of a
clean empty defect sequence, whatever `readNode` any decoder would have
supplied. -/
theorem empty_document_null_decoder_deref :
    ∀ readNode : List Ptree → Option Defect × List Ptree,
      (JsonParser.init (.node "" [])).decoder = none ∧
      (JsonParser.init (.node "" [])).inputError = false ∧
      (JsonParser.getNextWith readNode (JsonParser.init (.node "" []))).1 =
        .nullDeref := by
  intro readNode
  exact ⟨rfl, rfl, rfl⟩

/-- C9: the spec's CompilerDiagnostics example decodes to exactly one
defect with one event as stated; in general an absent "locations" field
leaves the sentinel file name and zero line/column, an absent message
defaults to "<unknown>", and a non-empty "option" is appended to the
message as a bracketed suffix. -/
theorem gcc_event_example_and_defaults :
    GccTreeDecoder.decodeNode gccElemA =
      some { defClass := "COMPILER_WARNING", events := [gccEventA], cwe := 0 } ∧
    (∀ (node : Ptree) (e : DefEvent), gccReadEvent node = some e →
      node.find "locations" = none →
      e.fileName = "<unknown>" ∧ e.line = 0 ∧ e.column = 0) ∧
    (∀ (node : Ptree) (e : DefEvent), gccReadEvent node = some e →
      node.find "message" = none → node.find "option" = none →
      e.msg = "<unknown>") ∧
    (∀ (node : Ptree) (e : DefEvent) (opt : Ptree), gccReadEvent node = some e →
      node.find "option" = some opt → opt.data ≠ "" →
      e.msg = valueOfS node "message" "<unknown>" ++ " [" ++ opt.data ++ "]") := by
  refine ⟨by decide, ?_, ?_, ?_⟩
  · intro node e hev hloc
    unfold gccReadEvent at hev
    simp only [findChildOf, hloc] at hev
    split at hev
    · exact absurd hev (by simp)
    · injection hev with h
      subst h
      exact ⟨rfl, rfl, rfl⟩
  · intro node e hev hm ho
    unfold gccReadEvent at hev
    simp only [valueOfS, findChildOf, hm, ho] at hev
    split at hev
    · exact absurd hev (by simp)
    · injection hev with h
      subst h
      simp
  · intro node e opt hev ho hopt
    unfold gccReadEvent at hev
    simp only [findChildOf] at hev
    split at hev
    · exact absurd hev (by simp)
    · injection hev with h
      subst h
      show (if valueOfS node "option" "" = "" then _ else _) = _
      rw [valueOfS, ho]
      simp [hopt]

/-- C9 (witness): the general defaulting conjuncts applied to the concrete
node `gccNoLocElem`, which carries only a kind. -/
theorem gcc_event_example_and_defaults_witness :
    let e : DefEvent :=
      { event := "note", fileName := "<unknown>", line := 0, column := 0,
        msg := "<unknown>" }
    (e.fileName = "<unknown>" ∧ e.line = 0 ∧ e.column = 0) ∧ e.msg = "<unknown>" :=
  ⟨gcc_event_example_and_defaults.2.1 gccNoLocElem _ (by decide) rfl,
   gcc_event_example_and_defaults.2.2.1 gccNoLocElem _ (by decide) rfl rfl⟩

/-- C10: whenever the key event decodes, the GCC decoder yields the defect
with the key event first and exactly the decodable children appended in
document order — a malformed child contributes nothing and raises no error;
only an undecodable key event rejects the whole record. -/
theorem gcc_malformed_child_skipped (defNode : Ptree) :
    (∀ keyEvt, gccReadEvent defNode = some keyEvt →
      ∃ d, GccTreeDecoder.decodeNode defNode = some d ∧
        d.defClass = "COMPILER_WARNING" ∧
        d.events = keyEvt :: (gccChildNodes defNode).filterMap gccReadEvent) ∧
    (gccReadEvent defNode = none → GccTreeDecoder.decodeNode defNode = none) := by
  constructor
  · intro keyEvt hk
    have hd : GccTreeDecoder.decodeNode defNode =
        some (gccPostProc
          { defClass := "COMPILER_WARNING"
            events := gccChildEvents (gccChildNodes defNode) [keyEvt]
            cwe :=
              match findChildOf defNode "metadata" with
              | some meta => valueOfI meta "cwe" 0
              | none => 0 }) := by
      unfold GccTreeDecoder.decodeNode
      rw [hk]
    exact ⟨_, hd, rfl, by simp [gccPostProc, gccChildEvents_eq]⟩
  · intro h
    unfold GccTreeDecoder.decodeNode
    rw [h]

/-- C10 (witness): the theorem applied to the concrete element whose
"children" hold one malformed and one well-formed entry; the decodable
children reduce to the single well-formed note event. -/
theorem gcc_malformed_child_skipped_witness :
    (∃ d, GccTreeDecoder.decodeNode gccElemWithChildren = some d ∧
      d.defClass = "COMPILER_WARNING" ∧
      d.events = { event := "warning", fileName := "<unknown>", msg := "top" } ::
        (gccChildNodes gccElemWithChildren).filterMap gccReadEvent) ∧
    (gccChildNodes gccElemWithChildren).filterMap gccReadEvent =
      [{ event := "note", fileName := "<unknown>", msg := "child note" }] :=
  ⟨(gcc_malformed_child_skipped gccElemWithChildren).1 _ (by decide), by decide⟩

/-- C3: on a non-empty document the sniffer tests the markers in the fixed
priority order "defects" (Native), "issues" (IssueTracker), "runs" (SARIF),
"comments" (ShellLinter), then a "kind" field on the first element
(CompilerDiagnostics); with no marker at all it fails with the fatal format
error, and at most one decoder is ever selected. -/
theorem sniffer_priority_order (root : Ptree) (key : String) (first : Ptree)
    (rest : List (String × Ptree))
    (hchild : root.children = (key, first) :: rest) :
    ((∃ n, sniffFormat root = .selected .simple n) ↔ hasChild root "defects") ∧
    ((∃ n, sniffFormat root = .selected .cov n) ↔
      ¬hasChild root "defects" ∧ hasChild root "issues") ∧
    ((∃ n, sniffFormat root = .selected .sarif n) ↔
      ¬hasChild root "defects" ∧ ¬hasChild root "issues" ∧ hasChild root "runs") ∧
    ((∃ n, sniffFormat root = .selected .shellcheck n) ↔
      ¬hasChild root "defects" ∧ ¬hasChild root "issues" ∧
        ¬hasChild root "runs" ∧ hasChild root "comments") ∧
    ((∃ n, sniffFormat root = .selected .gcc n) ↔
      ¬hasChild root "defects" ∧ ¬hasChild root "issues" ∧
        ¬hasChild root "runs" ∧ ¬hasChild root "comments" ∧ hasChild first "kind") ∧
    (sniffFormat root = .formatError ↔
      ¬hasChild root "defects" ∧ ¬hasChild root "issues" ∧
        ¬hasChild root "runs" ∧ ¬hasChild root "comments" ∧ ¬hasChild first "kind") ∧
    (∀ (k₁ k₂ : DecoderKind) (n₁ n₂ : Ptree),
      sniffFormat root = .selected k₁ n₁ → sniffFormat root = .selected k₂ n₂ →
        k₁ = k₂ ∧ n₁ = n₂) := by
  have huniq : ∀ (k₁ k₂ : DecoderKind) (n₁ n₂ : Ptree),
      sniffFormat root = .selected k₁ n₁ → sniffFormat root = .selected k₂ n₂ →
        k₁ = k₂ ∧ n₁ = n₂ := by
    intro k₁ k₂ n₁ n₂ h₁ h₂
    rw [h₁] at h₂
    injection h₂ with hk hn
    exact ⟨hk, hn⟩
  obtain ⟨d, cs⟩ := root
  simp only [Ptree.children] at hchild
  subst hchild
  refine ⟨?_, ?_, ?_, ?_, ?_, ?_, huniq⟩ <;>
  · simp only [sniffFormat, findChildOf, hasChild, Ptree.children]
    cases hdef : (Ptree.node d ((key, first) :: rest)).find "defects" with
    | some nd => simp [hdef]
    | none =>
      cases hiss : (Ptree.node d ((key, first) :: rest)).find "issues" with
      | some nd => simp [hdef, hiss]
      | none =>
        cases hrun : (Ptree.node d ((key, first) :: rest)).find "runs" with
        | some nd => simp [hdef, hiss, hrun]
        | none =>
          cases hcom : (Ptree.node d ((key, first) :: rest)).find "comments" with
          | some nd => simp [hdef, hiss, hrun, hcom]
          | none =>
            cases hkind : first.find "kind" with
            | some nk => simp [hdef, hiss, hrun, hcom, hkind]
            | none => simp [hdef, hiss, hrun, hcom, hkind]

/-- C3 (witness): the theorem applied to the concrete csdiff-native root,
which carries the "defects" marker. -/
theorem sniffer_priority_order_witness :
    ∃ n, sniffFormat rootWithDefects = .selected .simple n :=
  (sniffer_priority_order rootWithDefects "defects"
      (.node "" [("", .node "" [])]) [] rfl).1.mpr (by decide)

/-! ### Association-list lemmas (behaviour of the modelled `std::map`) -/

theorem alistFind?_update_self {α : Type} (k : String) (d : α) (f : α → α)
    (l : List (String × α)) :
    alistFind? k (alistUpdate k d f l) = some (f ((alistFind? k l).getD d)) := by
  induction l with
  | nil => simp [alistFind?, alistUpdate]
  | cons p r ih =>
    obtain ⟨k0, v⟩ := p
    by_cases hk : k0 = k
    · subst hk
      simp [alistFind?, alistUpdate]
    · simp [alistFind?, alistUpdate, hk, ih]

theorem alistFind?_update_other {α : Type} {k' k : String} (hne : k' ≠ k) (d : α)
    (f : α → α) (l : List (String × α)) :
    alistFind? k' (alistUpdate k d f l) = alistFind? k' l := by
  induction l with
  | nil => simp [alistFind?, alistUpdate, Ne.symm hne]
  | cons p r ih =>
    obtain ⟨k0, v⟩ := p
    by_cases hk : k0 = k
    · subst hk
      simp [alistFind?, alistUpdate, Ne.symm hne]
    · simp [alistFind?, alistUpdate, hk, ih]

theorem alistFind?_set_self {α : Type} {k : String} {l : List (String × α)} {w : α}
    (h : alistFind? k l = some w) (v : α) :
    alistFind? k (alistSet k v l) = some v := by
  induction l with
  | nil => simp [alistFind?] at h
  | cons p r ih =>
    obtain ⟨k0, w0⟩ := p
    by_cases hk : k0 = k
    · subst hk
      simp [alistFind?, alistSet]
    · simp only [alistFind?, hk, if_false] at h
      simp [alistFind?, alistSet, hk, ih h]

theorem alistFind?_set_other {α : Type} {k' k : String} (hne : k' ≠ k) (v : α)
    (l : List (String × α)) :
    alistFind? k' (alistSet k v l) = alistFind? k' l := by
  induction l with
  | nil => simp [alistSet]
  | cons p r ih =>
    obtain ⟨k0, w0⟩ := p
    by_cases hk : k0 = k
    · subst hk
      simp [alistFind?, alistSet, Ne.symm hne]
    · simp [alistFind?, alistSet, hk, ih]

theorem alistFind?_eq_none {α : Type} {k : String} {l : List (String × α)}
    (h : k ∉ l.map Prod.fst) :
    alistFind? k l = none := by
  induction l with
  | nil => simp [alistFind?]
  | cons p r ih =>
    obtain ⟨k0, v⟩ := p
    simp only [List.map_cons, List.mem_cons] at h
    push_neg at h
    have hk : ¬k0 = k := fun hk => h.1 hk.symm
    simp [alistFind?, hk, ih h.2]

theorem alistFind?_some_mem {α : Type} {k : String} {l : List (String × α)} {v : α}
    (h : alistFind? k l = some v) :
    (k, v) ∈ l := by
  induction l with
  | nil => simp [alistFind?] at h
  | cons p r ih =>
    obtain ⟨k0, w⟩ := p
    by_cases hk : k0 = k
    · subst hk
      have h' : w = v := by simpa [alistFind?] using h
      subst h'
      exact List.mem_cons_self _ _
    · simp only [alistFind?, hk, if_false] at h
      exact List.mem_cons_of_mem _ (ih h)

theorem alistFind?_erase_self {α : Type} {k : String} {l : List (String × α)}
    (h : KeysNodup l) :
    alistFind? k (alistErase k l) = none := by
  induction l with
  | nil => simp [alistErase, alistFind?]
  | cons p r ih =>
    obtain ⟨k0, v⟩ := p
    simp only [KeysNodup, List.map_cons, List.nodup_cons] at h
    by_cases hk : k0 = k
    · subst hk
      simp only [alistErase, if_pos rfl]
      exact alistFind?_eq_none h.1
    · simp [alistErase, alistFind?, hk, ih h.2]

theorem alistFind?_erase_other {α : Type} {k' k : String} (hne : k' ≠ k)
    (l : List (String × α)) :
    alistFind? k' (alistErase k l) = alistFind? k' l := by
  induction l with
  | nil => simp [alistErase]
  | cons p r ih =>
    obtain ⟨k0, v⟩ := p
    by_cases hk : k0 = k
    · subst hk
      simp [alistErase, alistFind?, Ne.symm hne]
    · simp [alistErase, alistFind?, hk, ih]

theorem keys_alistSet {α : Type} (k : String) (v : α) (l : List (String × α)) :
    (alistSet k v l).map Prod.fst = l.map Prod.fst := by
  induction l with
  | nil => simp [alistSet]
  | cons p r ih =>
    obtain ⟨k0, w⟩ := p
    by_cases hk : k0 = k
    · subst hk
      simp [alistSet]
    · simp [alistSet, hk, ih]

theorem keys_alistUpdate {α : Type} (k : String) (d : α) (f : α → α)
    (l : List (String × α)) :
    (alistUpdate k d f l).map Prod.fst =
      if k ∈ l.map Prod.fst then l.map Prod.fst else l.map Prod.fst ++ [k] := by
  induction l with
  | nil => simp [alistUpdate]
  | cons p r ih =>
    obtain ⟨k0, v⟩ := p
    by_cases hk : k0 = k
    · subst hk
      simp [alistUpdate]
    · simp only [alistUpdate, hk, if_false, List.map_cons, ih]
      have hne : ¬k = k0 := fun h => hk h.symm
      by_cases hmem : k ∈ r.map Prod.fst
      · simp [hmem, hne]
      · simp [hmem, hne]

theorem keysNodup_alistUpdate {α : Type} {l : List (String × α)} (h : KeysNodup l)
    (k : String) (d : α) (f : α → α) :
    KeysNodup (alistUpdate k d f l) := by
  unfold KeysNodup at h ⊢
  rw [keys_alistUpdate]
  by_cases hmem : k ∈ l.map Prod.fst
  · simpa [hmem] using h
  · simp [hmem, List.Nodup.append, h, List.nodup_append]

theorem keysNodup_alistSet {α : Type} {l : List (String × α)} (h : KeysNodup l)
    (k : String) (v : α) :
    KeysNodup (alistSet k v l) := by
  unfold KeysNodup at h ⊢
  rwa [keys_alistSet]

theorem keys_alistErase_sublist {α : Type} (k : String) (l : List (String × α)) :
    ((alistErase k l).map Prod.fst).Sublist (l.map Prod.fst) := by
  induction l with
  | nil => simp [alistErase]
  | cons p r ih =>
    obtain ⟨k0, v⟩ := p
    by_cases hk : k0 = k
    · subst hk
      simp only [alistErase, if_pos rfl, List.map_cons]
      exact List.sublist_cons_self _ _
    · simp only [alistErase, hk, if_false, List.map_cons]
      exact ih.cons₂ k0

theorem keysNodup_alistErase {α : Type} {l : List (String × α)} (h : KeysNodup l)
    (k : String) :
    KeysNodup (alistErase k l) :=
  List.Nodup.sublist (keys_alistErase_sublist k l) h

theorem mem_alistUpdate {α : Type} {p : String × α} {k : String} {d : α} {f : α → α}
    {l : List (String × α)} (h : p ∈ alistUpdate k d f l) :
    p ∈ l ∨ ∃ v, p = (k, f v) ∧ ((k, v) ∈ l ∨ v = d) := by
  induction l with
  | nil =>
    simp only [alistUpdate, List.mem_singleton] at h
    exact Or.inr ⟨d, h, Or.inr rfl⟩
  | cons q r ih =>
    obtain ⟨k0, v0⟩ := q
    by_cases hk : k0 = k
    · subst hk
      simp only [alistUpdate, if_pos rfl] at h
      rcases List.mem_cons.1 h with h1 | h1
      · exact Or.inr ⟨v0, h1, Or.inl (List.mem_cons_self _ _)⟩
      · exact Or.inl (List.mem_cons_of_mem _ h1)
    · simp only [alistUpdate, hk, if_false] at h
      rcases List.mem_cons.1 h with h1 | h1
      · exact Or.inl (h1 ▸ List.mem_cons_self _ _)
      · rcases ih h1 with h2 | ⟨v, hv, hm⟩
        · exact Or.inl (List.mem_cons_of_mem _ h2)
        · exact Or.inr ⟨v, hv, hm.imp_left (List.mem_cons_of_mem _)⟩

theorem mem_alistSet {α : Type} {p : String × α} {k : String} {v : α}
    {l : List (String × α)} (h : p ∈ alistSet k v l) :
    p ∈ l ∨ p = (k, v) := by
  induction l with
  | nil => simp [alistSet] at h
  | cons q r ih =>
    obtain ⟨k0, w⟩ := q
    by_cases hk : k0 = k
    · subst hk
      simp only [alistSet, if_pos rfl] at h
      rcases List.mem_cons.1 h with h1 | h1
      · exact Or.inr h1
      · exact Or.inl (List.mem_cons_of_mem _ h1)
    · simp only [alistSet, hk, if_false] at h
      rcases List.mem_cons.1 h with h1 | h1
      · exact Or.inl (h1 ▸ List.mem_cons_self _ _)
      · exact (ih h1).imp_left (List.mem_cons_of_mem _)

theorem mem_alistErase {α : Type} {p : String × α} {k : String}
    {l : List (String × α)} (h : p ∈ alistErase k l) :
    p ∈ l := by
  induction l with
  | nil => simp [alistErase] at h
  | cons q r ih =>
    obtain ⟨k0, w⟩ := q
    by_cases hk : k0 = k
    · subst hk
      simp only [alistErase, if_pos rfl] at h
      exact List.mem_cons_of_mem _ h
    · simp only [alistErase, hk, if_false] at h
      rcases List.mem_cons.1 h with h1 | h1
      · exact h1 ▸ List.mem_cons_self _ _
      · exact List.mem_cons_of_mem _ (ih h1)

theorem alistUpdate_ne_nil {α : Type} (k : String) (d : α) (f : α → α)
    (l : List (String × α)) :
    alistUpdate k d f l ≠ [] := by
  cases l with
  | nil => simp [alistUpdate]
  | cons q r =>
    obtain ⟨k0, v⟩ := q
    by_cases hk : k0 = k <;> simp [alistUpdate, hk]

theorem alistSet_ne_nil {α : Type} {l : List (String × α)} (h : l ≠ [])
    (k : String) (v : α) :
    alistSet k v l ≠ [] := by
  cases l with
  | nil => exact absurd rfl h
  | cons q r =>
    obtain ⟨k0, w⟩ := q
    by_cases hk : k0 = k <;> simp [alistSet, hk]

theorem alistErase_eq_nil {α : Type} {p : String} {l : List (String × α)} {v : α}
    (hfind : alistFind? p l = some v) (herase : alistErase p l = []) :
    l = [(p, v)] := by
  cases l with
  | nil => simp [alistFind?] at hfind
  | cons q r =>
    obtain ⟨p0, w⟩ := q
    by_cases hp : p0 = p
    · subst hp
      have hv : w = v := by simpa [alistFind?] using hfind
      subst hv
      simp only [alistErase, if_pos rfl] at herase
      simp only [if_true, eq_self_iff_true] at herase
      rw [herase]
    · simp only [alistErase, hp, if_false] at herase
      exact absurd herase (by simp)

/-! ### Counting defects through the queue operations -/

theorem ite_eq_swap (a b : Defect) :
    (if a = b then (1 : Nat) else 0) = if b = a then 1 else 0 := by
  by_cases h : a = b
  · simp [h]
  · rw [if_neg h, if_neg (fun h2 : b = a => h h2.symm)]

theorem count_singleton_ite (x d : Defect) :
    List.count x [d] = if x = d then 1 else 0 := by
  by_cases hxd : x = d
  · subst hxd
    simp
  · rw [if_neg hxd, List.count_eq_zero]
    simp [hxd]

theorem countInRow_update_append (x d : Defect) (p : String) (row : TDefByFile) :
    countInRow x (alistUpdate p [] (fun col => col ++ [d]) row) =
      countInRow x row + (if x = d then 1 else 0) := by
  induction row with
  | nil => simp [alistUpdate, countInRow, count_singleton_ite x d]
  | cons q r ih =>
    obtain ⟨p0, col⟩ := q
    by_cases hp : p0 = p
    · subst hp
      simp only [alistUpdate, if_pos rfl, eq_self_iff_true, if_true, countInRow,
        List.map_cons, List.sum_cons, List.count_append, count_singleton_ite x d]
      omega
    · simp only [alistUpdate, hp, if_false, countInRow, List.map_cons, List.sum_cons]
      have := ih
      simp only [countInRow] at this
      omega

theorem countDef_hashDefect (filt : String → String) (x d : Defect)
    (stor : TDefByClass) :
    countDef x (DefQueue.hashDefect filt d stor) =
      countDef x stor + (if x = d then 1 else 0) := by
  unfold DefQueue.hashDefect
  induction stor with
  | nil =>
    simp [alistUpdate, countDef, countInRow, count_singleton_ite x d]
  | cons q r ih =>
    obtain ⟨c0, row⟩ := q
    by_cases hc : c0 = d.defClass
    · subst hc
      simp only [alistUpdate, if_pos rfl, eq_self_iff_true, if_true, countDef,
        List.map_cons, List.sum_cons, countInRow_update_append]
      omega
    · simp only [alistUpdate, hc, if_false, countDef, List.map_cons, List.sum_cons]
      have := ih
      simp only [countDef] at this
      omega

theorem countInRow_erase_of_find {p : String} {row : TDefByFile} {col : TDefList}
    (h : alistFind? p row = some col) (x : Defect) :
    countInRow x (alistErase p row) + col.count x = countInRow x row := by
  induction row with
  | nil => simp [alistFind?] at h
  | cons q r ih =>
    obtain ⟨p0, col0⟩ := q
    by_cases hp : p0 = p
    · subst hp
      have hcol : col0 = col := by simpa [alistFind?] using h
      subst hcol
      simp only [alistErase, if_pos rfl, eq_self_iff_true, if_true, countInRow,
        List.map_cons, List.sum_cons]
      omega
    · simp only [alistFind?, hp, if_false] at h
      simp only [alistErase, hp, if_false, countInRow, List.map_cons, List.sum_cons]
      have := ih h
      simp only [countInRow] at this
      omega

theorem countInRow_set_of_find {p : String} {row : TDefByFile} {col : TDefList}
    (h : alistFind? p row = some col) (col' : TDefList) (x : Defect) :
    countInRow x (alistSet p col' row) + col.count x =
      countInRow x row + col'.count x := by
  induction row with
  | nil => simp [alistFind?] at h
  | cons q r ih =>
    obtain ⟨p0, col0⟩ := q
    by_cases hp : p0 = p
    · subst hp
      have hcol : col0 = col := by simpa [alistFind?] using h
      subst hcol
      simp only [alistSet, if_pos rfl, eq_self_iff_true, if_true, countInRow,
        List.map_cons, List.sum_cons]
      omega
    · simp only [alistFind?, hp, if_false] at h
      simp only [alistSet, hp, if_false, countInRow, List.map_cons, List.sum_cons]
      have := ih h
      simp only [countInRow] at this
      omega

theorem countDef_erase_of_find {c : String} {stor : TDefByClass} {row : TDefByFile}
    (h : alistFind? c stor = some row) (x : Defect) :
    countDef x (alistErase c stor) + countInRow x row = countDef x stor := by
  induction stor with
  | nil => simp [alistFind?] at h
  | cons q r ih =>
    obtain ⟨c0, row0⟩ := q
    by_cases hc : c0 = c
    · subst hc
      have hrow : row0 = row := by simpa [alistFind?] using h
      subst hrow
      simp only [alistErase, if_pos rfl, eq_self_iff_true, if_true, countDef,
        List.map_cons, List.sum_cons]
      omega
    · simp only [alistFind?, hc, if_false] at h
      simp only [alistErase, hc, if_false, countDef, List.map_cons, List.sum_cons]
      have := ih h
      simp only [countDef] at this
      omega

theorem countDef_set_of_find {c : String} {stor : TDefByClass} {row : TDefByFile}
    (h : alistFind? c stor = some row) (row' : TDefByFile) (x : Defect) :
    countDef x (alistSet c row' stor) + countInRow x row =
      countDef x stor + countInRow x row' := by
  induction stor with
  | nil => simp [alistFind?] at h
  | cons q r ih =>
    obtain ⟨c0, row0⟩ := q
    by_cases hc : c0 = c
    · subst hc
      have hrow : row0 = row := by simpa [alistFind?] using h
      subst hrow
      simp only [alistSet, if_pos rfl, eq_self_iff_true, if_true, countDef,
        List.map_cons, List.sum_cons]
      omega
    · simp only [alistFind?, hc, if_false] at h
      simp only [alistSet, hc, if_false, countDef, List.map_cons, List.sum_cons]
      have := ih h
      simp only [countDef] at this
      omega

/-! ### The per-key queues through insertion and lookup -/

theorem queueAt_hashDefect_self (filt : String → String) (d : Defect)
    (stor : TDefByClass) :
    queueAt d.defClass (filt (keyFileName d)) (DefQueue.hashDefect filt d stor) =
      queueAt d.defClass (filt (keyFileName d)) stor ++ [d] := by
  unfold queueAt DefQueue.hashDefect
  cases hc : alistFind? d.defClass stor with
  | none =>
    rw [alistFind?_update_self, hc]
    simp [alistFind?_update_self, alistFind?]
  | some row =>
    rw [alistFind?_update_self, hc]
    simp only [Option.getD_some]
    rw [alistFind?_update_self]
    cases hp : alistFind? (filt (keyFileName d)) row <;> simp [hp]

/-- Everything a `DefQueue::lookup` call does, phrased through the queue of
the addressed (class, normalized file) key: an empty queue under the key
means a failed lookup; a non-empty queue means the lookup pops exactly its
front defect, decrementing that defect's multiplicity by one and leaving the
rest of the key's queue in place. -/
theorem lookup_characterization (filt : String → String) (c f : String)
    (stor : TDefByClass) :
    (queueAt c (filt f) stor = [] → DefQueue.lookup filt c f stor = none) ∧
    (∀ dst rest, queueAt c (filt f) stor = dst :: rest →
      ∃ stor', DefQueue.lookup filt c f stor = some (dst, stor') ∧
        (∀ x : Defect, countDef x stor' + (if x = dst then 1 else 0) = countDef x stor) ∧
        (rest ≠ [] → queueAt c (filt f) stor' = rest) ∧
        (QueueInv stor → queueAt c (filt f) stor' = rest)) := by
  constructor
  · intro hq
    unfold queueAt at hq
    simp only [DefQueue.lookup]
    cases hc : alistFind? c stor with
    | none => rfl
    | some row =>
      simp only [hc] at hq
      cases row with
      | nil => rfl
      | cons rq rr =>
        dsimp only
        cases hp : alistFind? (filt f) (rq :: rr) with
        | none => rfl
        | some col =>
          simp only [hp, Option.getD_some] at hq
          subst hq
          rfl
  · intro dst rest hq
    unfold queueAt at hq
    simp only [DefQueue.lookup]
    cases hc : alistFind? c stor with
    | none =>
      simp only [hc] at hq
      exact absurd hq (by simp)
    | some row =>
      simp only [hc] at hq
      cases row with
      | nil => simp [alistFind?] at hq
      | cons rq rr =>
        dsimp only
        cases hp : alistFind? (filt f) (rq :: rr) with
        | none =>
          simp only [hp] at hq
          exact absurd hq (by simp)
        | some col =>
          simp only [hp, Option.getD_some] at hq
          subst hq
          dsimp only
          cases rest with
          | nil =>
            dsimp only [List.isEmpty_nil]
            cases hrow' : alistErase (filt f) (rq :: rr) with
            | nil =>
              have hrow_eq : rq :: rr = [(filt f, [dst])] := alistErase_eq_nil hp hrow'
              refine ⟨alistErase c stor, rfl, ?_, fun hne => absurd rfl hne, ?_⟩
              · intro x
                have hcd := countDef_erase_of_find hc x
                rw [hrow_eq] at hcd
                simp only [countInRow, List.map_cons, List.map_nil, List.sum_cons,
                  List.sum_nil, count_singleton_ite x dst] at hcd
                omega
              · intro hinv
                unfold queueAt
                rw [alistFind?_erase_self hinv.1]
            | cons e es =>
              refine ⟨alistSet c (e :: es) stor, rfl, ?_, fun hne => absurd rfl hne, ?_⟩
              · intro x
                have hcd := countDef_set_of_find hc (e :: es) x
                have hcr := countInRow_erase_of_find hp x
                rw [hrow'] at hcr
                simp only [count_singleton_ite x dst] at hcr
                omega
              · intro hinv
                have hmem := alistFind?_some_mem hc
                have hnodup : KeysNodup (rq :: rr) := ((hinv.2 _ hmem).1)
                unfold queueAt
                rw [alistFind?_set_self hc]
                simp only [Option.getD_some]
                rw [← hrow', alistFind?_erase_self hnodup]
                rfl
          | cons y ys =>
            dsimp only [List.isEmpty_cons]
            refine ⟨alistSet c (alistSet (filt f) (y :: ys) (rq :: rr)) stor, rfl, ?_,
              ?_, fun _ => ?_⟩
            · intro x
              have hcd := countDef_set_of_find hc (alistSet (filt f) (y :: ys) (rq :: rr)) x
              have hcr := countInRow_set_of_find hp (y :: ys) x
              have hcnt : List.count x (dst :: y :: ys) =
                  List.count x (y :: ys) + (if x = dst then 1 else 0) := by
                simp only [List.count_cons]
                rw [ite_eq_swap]
                simp
              omega
            · intro _
              unfold queueAt
              rw [alistFind?_set_self hc]
              simp only [Option.getD_some]
              rw [alistFind?_set_self hp]
              rfl
            · unfold queueAt
              rw [alistFind?_set_self hc]
              simp only [Option.getD_some]
              rw [alistFind?_set_self hp]
              rfl

/-- Insertion preserves the queue's structural invariant. -/
theorem hashDefect_preserves_inv {stor : TDefByClass} (h : QueueInv stor)
    (filt : String → String) (d : Defect) :
    QueueInv (DefQueue.hashDefect filt d stor) := by
  obtain ⟨hnd, hmem⟩ := h
  unfold DefQueue.hashDefect
  refine ⟨keysNodup_alistUpdate hnd _ _ _, ?_⟩
  intro p hp
  rcases mem_alistUpdate hp with hin | ⟨row, hrow, hsrc⟩
  · exact hmem p hin
  · subst hrow
    have hrow_nodup : KeysNodup row := by
      rcases hsrc with hin | rfl
      · exact (hmem _ hin).1
      · simp [KeysNodup]
    have hrow_cols : ∀ q ∈ row, q.2 ≠ [] := by
      rcases hsrc with hin | rfl
      · exact (hmem _ hin).2.2
      · intro q hq
        simp at hq
    refine ⟨keysNodup_alistUpdate hrow_nodup _ _ _, alistUpdate_ne_nil _ _ _ _, ?_⟩
    intro q hq
    rcases mem_alistUpdate hq with hin | ⟨col, hcol, -⟩
    · exact hrow_cols q hin
    · subst hcol
      simp

/-- A successful lookup preserves the queue's structural invariant: the
pruning steps never leave an empty column or row behind. -/
theorem lookup_preserves_inv {stor stor' : TDefByClass} {dst : Defect}
    (h : QueueInv stor) {filt : String → String} {c f : String}
    (hl : DefQueue.lookup filt c f stor = some (dst, stor')) :
    QueueInv stor' := by
  obtain ⟨hnd, hmem⟩ := h
  simp only [DefQueue.lookup] at hl
  split at hl
  · exact absurd hl (by simp)
  · rename_i row hc
    have hrowmem := alistFind?_some_mem hc
    obtain ⟨hrow_nd, hrow_ne, hrow_cols⟩ := hmem _ hrowmem
    split at hl
    · exact absurd hl (by simp)
    · split at hl
      · exact absurd hl (by simp)
      · rename_i col hp
        split at hl
        · exact absurd hl (by simp)
        · rename_i dst0 colRest
          split at hl
          · -- colRest empty: the column is erased
            split at hl
            · -- the row became empty too and is erased from the store
              simp only [Option.some.injEq, Prod.mk.injEq] at hl
              obtain ⟨-, h2⟩ := hl
              subst h2
              refine ⟨keysNodup_alistErase hnd c, ?_⟩
              intro p hp2
              exact hmem p (mem_alistErase hp2)
            · -- the pruned row stays, written back in place
              rename_i hrow'
              simp only [Option.some.injEq, Prod.mk.injEq] at hl
              obtain ⟨-, h2⟩ := hl
              subst h2
              refine ⟨keysNodup_alistSet hnd c _, ?_⟩
              intro p hp2
              rcases mem_alistSet hp2 with hin | rfl
              · exact hmem p hin
              · refine ⟨keysNodup_alistErase hrow_nd _, ?_, ?_⟩
                · intro hcon
                  exact hrow' (by rw [List.isEmpty_iff]; exact hcon)
                · intro q hq
                  exact hrow_cols q (mem_alistErase hq)
          · -- colRest non-empty: the shortened column is written back
            rename_i hcr
            simp only [Option.some.injEq, Prod.mk.injEq] at hl
            obtain ⟨-, h2⟩ := hl
            subst h2
            refine ⟨keysNodup_alistSet hnd c _, ?_⟩
            intro p hp2
            rcases mem_alistSet hp2 with hin | rfl
            · exact hmem p hin
            · refine ⟨keysNodup_alistSet hrow_nd _ _,
                alistSet_ne_nil hrow_ne _ _, ?_⟩
              intro q hq
              rcases mem_alistSet hq with hin | rfl
              · exact hrow_cols q hin
              · intro hcon
                exact hcr (by rw [List.isEmpty_iff]; exact hcon)

/-- Under the invariant, emptiness of the queue coincides with no defect
being queued at all. -/
theorem inv_empty_iff {stor : TDefByClass} (h : QueueInv stor) :
    DefQueue.isEmpty stor = true ↔ totalCount stor = 0 := by
  constructor
  · intro he
    have hnil : stor = [] := by
      simpa [DefQueue.isEmpty, List.isEmpty_iff] using he
    subst hnil
    rfl
  · intro ht
    cases hs : stor with
    | nil => simp [DefQueue.isEmpty]
    | cons q r =>
      exfalso
      subst hs
      obtain ⟨c0, row⟩ := q
      obtain ⟨hrow_nd, hrow_ne, hrow_cols⟩ := h.2 _ (List.mem_cons_self _ _)
      cases row with
      | nil => exact hrow_ne rfl
      | cons p2 r2 =>
        obtain ⟨pp, col⟩ := p2
        have hcol := hrow_cols _ (List.mem_cons_self _ _)
        cases col with
        | nil => exact hcol rfl
        | cons a as =>
          simp [totalCount] at ht

/-- C6: across every insert and every successful lookup the queue keeps its
self-pruning invariant — every present outer key holds a non-empty row of
non-empty columns — and consequently `empty()` holds exactly when no defect
is queued. -/
theorem queue_self_pruning_invariant (filt : String → String) (stor : TDefByClass)
    (h : QueueInv stor) :
    (∀ d, QueueInv (DefQueue.hashDefect filt d stor)) ∧
    (∀ c f dst stor', DefQueue.lookup filt c f stor = some (dst, stor') →
      QueueInv stor') ∧
    (DefQueue.isEmpty stor = true ↔ totalCount stor = 0) ∧
    (∀ c row, alistFind? c stor = some row →
      row ≠ [] ∧ ∀ p col, alistFind? p row = some col → col ≠ []) :=
  ⟨fun d => hashDefect_preserves_inv h filt d,
   fun _c _f _dst _stor' hl => lookup_preserves_inv h hl,
   inv_empty_iff h,
   fun _c _row hfind =>
     ⟨(h.2 _ (alistFind?_some_mem hfind)).2.1,
      fun _p _col hf =>
        (h.2 _ (alistFind?_some_mem hfind)).2.2 _ (alistFind?_some_mem hf)⟩⟩

/-- C6 (witness): the invariant theorem applied to the concrete one-defect
queue. -/
theorem queue_self_pruning_invariant_witness :
    QueueInv (DefQueue.hashDefect id defA queueWithC) ∧
    (DefQueue.isEmpty queueWithC = true ↔ totalCount queueWithC = 0) :=
  ⟨(queue_self_pruning_invariant id queueWithC (by decide)).1 defA,
   (queue_self_pruning_invariant id queueWithC (by decide)).2.2.1⟩

/-- C4 (counterexample): with `defC` already queued under the key ("X","f"),
inserting `defA` then `defB` under that key and looking up twice does NOT
return `defA` first — the first lookup returns the pre-existing `defC`. -/
theorem fifo_within_key_cex :
    (DefQueue.lookup id "X" "f"
        (DefQueue.hashDefect id defB (DefQueue.hashDefect id defA queueWithC))).map
      Prod.fst = some defC ∧ defC ≠ defA := by
  decide

/-- C4 (amended): provided no defect is queued under the shared key
beforehand, inserting A then B under that key and looking the key up twice
returns A first and B second (FIFO within a key). -/
theorem fifo_within_key_amended (filt : String → String) (q : TDefByClass)
    (A B : Defect) (c f : String)
    (hA : A.defClass = c) (hB : B.defClass = c)
    (hfA : filt (keyFileName A) = filt f) (hfB : filt (keyFileName B) = filt f)
    (hfresh : queueAt c (filt f) q = []) :
    ∃ q₁ q₂,
      DefQueue.lookup filt c f
          (DefQueue.hashDefect filt B (DefQueue.hashDefect filt A q)) =
        some (A, q₁) ∧
      DefQueue.lookup filt c f q₁ = some (B, q₂) := by
  have hAq := queueAt_hashDefect_self filt A q
  rw [hA, hfA, hfresh] at hAq
  have hBq := queueAt_hashDefect_self filt B (DefQueue.hashDefect filt A q)
  rw [hB, hfB, hAq] at hBq
  simp only [List.nil_append] at hBq
  obtain ⟨q₁, hl₁, -, hrest₁, -⟩ :=
    (lookup_characterization filt c f _).2 A [B] hBq
  have hq₁ : queueAt c (filt f) q₁ = [B] := hrest₁ (by simp)
  obtain ⟨q₂, hl₂, -, -, -⟩ :=
    (lookup_characterization filt c f q₁).2 B [] hq₁
  exact ⟨q₁, q₂, hl₁, hl₂⟩

/-- C4 (witness): the amended FIFO theorem applied at a concrete empty
queue with the two concrete defects. -/
theorem fifo_within_key_amended_witness :
    ∃ q₁ q₂,
      DefQueue.lookup id "X" "f"
          (DefQueue.hashDefect id defB (DefQueue.hashDefect id defA [])) =
        some (defA, q₁) ∧
      DefQueue.lookup id "X" "f" q₁ = some (defB, q₂) :=
  fifo_within_key_amended id [] defA defB "X" "f" rfl rfl rfl rfl rfl

/-- C5 (counterexample): with `defE` already queued under `defD`'s key,
inserting `defD` and looking its key up returns `defE`, not `defD`, and
`defD` is still queued afterwards. -/
theorem insert_lookup_roundtrip_cex :
    (DefQueue.lookup id "Y" "g" (DefQueue.hashDefect id defD queueWithE)).map
      Prod.fst = some defE ∧
    defE ≠ defD ∧
    (DefQueue.lookup id "Y" "g" (DefQueue.hashDefect id defD queueWithE)).map
      (fun r => countDef defD r.2) = some 1 ∧
    countDef defD queueWithE = 0 := by
  decide

/-- C5 (amended): provided no defect is queued under d's key beforehand,
inserting d and immediately looking up with d's class and its key event's
file name succeeds, returns d itself, and removes that occurrence (the
multiplicity of d returns to its pre-insertion value). -/
theorem insert_lookup_roundtrip_amended (filt : String → String) (q : TDefByClass)
    (d : Defect)
    (hfresh : queueAt d.defClass (filt (keyFileName d)) q = []) :
    ∃ q', DefQueue.lookup filt d.defClass (keyFileName d)
        (DefQueue.hashDefect filt d q) = some (d, q') ∧
      countDef d q' = countDef d q := by
  have hq := queueAt_hashDefect_self filt d q
  rw [hfresh] at hq
  simp only [List.nil_append] at hq
  obtain ⟨q', hl, hcount, -, -⟩ :=
    (lookup_characterization filt d.defClass (keyFileName d) _).2 d [] hq
  refine ⟨q', hl, ?_⟩
  have hc := hcount d
  have hins := countDef_hashDefect filt d d q
  simp only [if_pos rfl] at hc hins
  omega

/-- C5 (witness): the amended round-trip theorem applied at the concrete
empty queue. -/
theorem insert_lookup_roundtrip_amended_witness :
    ∃ q', DefQueue.lookup id "Y" "g" (DefQueue.hashDefect id defD []) =
        some (defD, q') ∧
      countDef defD q' = countDef defD [] :=
  insert_lookup_roundtrip_amended id [] defD rfl

/-- C8: each query line is split on ','; fewer than 3 fields, or a first
field that does not parse as an integer, make the line a per-line error —
reported against its 1-based line number, skipped, the cumulative error flag
set, and parsing continuing with the next line; otherwise the line yields a
query with the integer first field and fields 1 and 2 taken verbatim, any
extra fields ignored. -/
theorem query_line_parsing (line : String) (rest : List String) (lineno : Nat)
    (e : Bool) (ds : List (Nat × String)) :
    (∀ t0 t1 t2 ts cid, splitLine line = t0 :: t1 :: t2 :: ts →
      parseCid t0 = some cid →
      DefQueryParser.getNext ⟨line :: rest, lineno, e, false, ds⟩ =
        (some ⟨cid, t1, t2⟩, ⟨rest, lineno + 1, e, false, ds⟩)) ∧
    ((splitLine line).length < 3 →
      DefQueryParser.getNext ⟨line :: rest, lineno, e, false, ds⟩ =
        DefQueryParser.getNext
          ⟨rest, lineno + 1, true, false,
            ds ++ [(lineno + 1, "not enough fields at the line")]⟩) ∧
    (∀ t0 t1 t2 ts, splitLine line = t0 :: t1 :: t2 :: ts →
      parseCid t0 = none →
      DefQueryParser.getNext ⟨line :: rest, lineno, e, false, ds⟩ =
        DefQueryParser.getNext
          ⟨rest, lineno + 1, true, false,
            ds ++ [(lineno + 1, "failed to parse CID")]⟩) := by
  refine ⟨?_, ?_, ?_⟩
  · intro t0 t1 t2 ts cid hsplit hcid
    simp only [DefQueryParser.getNext, Bool.false_eq_true, if_false,
      DefQueryParser.getNext.go]
    rw [hsplit]
    simp [hcid]
  · intro hlen
    simp only [DefQueryParser.getNext, Bool.false_eq_true, if_false,
      DefQueryParser.getNext.go]
    rcases hs : splitLine line with _ | ⟨a, _ | ⟨b, _ | ⟨cc, ts⟩⟩⟩
    · rfl
    · rfl
    · rfl
    · rw [hs] at hlen
      simp at hlen
      omega
  · intro t0 t1 t2 ts hsplit hcid
    simp only [DefQueryParser.getNext, Bool.false_eq_true, if_false,
      DefQueryParser.getNext.go]
    rw [hsplit]
    simp [hcid]

/-- C8 (witness): the parsing theorem applied to a concrete well-formed
line and a concrete malformed one. -/
theorem query_line_parsing_witness :
    DefQueryParser.getNext ⟨["12,CLASS,file.c"], 0, false, false, []⟩ =
      (some ⟨12, "CLASS", "file.c"⟩, ⟨[], 1, false, false, []⟩) ∧
    DefQueryParser.getNext ⟨["no-commas"], 0, false, false, []⟩ =
      DefQueryParser.getNext
        ⟨[], 1, true, false, [(1, "not enough fields at the line")]⟩ :=
  ⟨(query_line_parsing "12,CLASS,file.c" [] 0 false []).1 "12" "CLASS" "file.c" []
      12 (by decide) (by decide),
   (query_line_parsing "no-commas" [] 0 false []).2.1 (by decide)⟩

/-! ### The run's exit status -/

theorem getNext_go_none_hasError :
    ∀ (ls : List String) (n : Nat) (e : Bool) (ds : List (Nat × String))
      (st' : QPState), DefQueryParser.getNext.go ls n e ds = (none, st') →
      st'.hasError = true := by
  intro ls
  induction ls with
  | nil =>
    intro n e ds st' h
    injection h with h1 h2
    subst h2
    rfl
  | cons line rest ih =>
    intro n e ds st' h
    simp only [DefQueryParser.getNext.go] at h
    split at h
    · split at h
      · exact ih _ _ _ _ h
      · exact absurd h (by simp)
    · exact ih _ _ _ _ h

theorem getNext_none_hasError {st st' : QPState} (hf : st.failed = false)
    (h : DefQueryParser.getNext st = (none, st')) :
    st'.hasError = true := by
  unfold DefQueryParser.getNext at h
  rw [hf] at h
  simp only [Bool.false_eq_true, if_false] at h
  exact getNext_go_none_hasError _ _ _ _ _ h

theorem getNext_go_some_state :
    ∀ (ls : List String) (n : Nat) (e : Bool) (ds : List (Nat × String))
      (row : QRow) (st' : QPState),
      DefQueryParser.getNext.go ls n e ds = (some row, st') →
      st'.failed = false ∧ st'.lines.length < ls.length := by
  intro ls
  induction ls with
  | nil =>
    intro n e ds row st' h
    exact absurd h (by simp [DefQueryParser.getNext.go])
  | cons line rest ih =>
    intro n e ds row st' h
    simp only [DefQueryParser.getNext.go] at h
    split at h
    · split at h
      · obtain ⟨h1, h2⟩ := ih _ _ _ _ _ h
        exact ⟨h1, Nat.lt_trans h2 (Nat.lt_succ_self _)⟩
      · injection h with h1 h2
        subst h2
        exact ⟨rfl, by simp⟩
    · obtain ⟨h1, h2⟩ := ih _ _ _ _ _ h
      exact ⟨h1, Nat.lt_trans h2 (Nat.lt_succ_self _)⟩

theorem getNext_some_state {st st' : QPState} {row : QRow}
    (h : DefQueryParser.getNext st = (some row, st')) :
    st'.failed = false ∧ st'.lines.length < st.lines.length := by
  unfold DefQueryParser.getNext at h
  split at h
  · exact absurd h (by simp)
  · exact getNext_go_some_state _ _ _ _ _ _ h

/-- After the query loop drains its stream, the parser's cumulative error
flag is set — the final `getline` failure at end of input sets it
unconditionally — and the queue invariant is preserved through all the
lookups performed on the way. -/
theorem queryLoop_post (filt : String → String) :
    ∀ (n : Nat) (st : QPState) (stor : TDefByClass) (acc : List (Int × Defect))
      (unm : List QRow), st.lines.length ≤ n → st.failed = false →
      QueueInv stor →
      (queryLoop filt st stor acc unm).2.2.2.hasError = true ∧
      QueueInv (queryLoop filt st stor acc unm).2.2.1 := by
  intro n
  induction n with
  | zero =>
    intro st stor acc unm hlen hf hinv
    rw [queryLoop]
    split
    · rename_i st' heq
      exact ⟨getNext_none_hasError hf heq, hinv⟩
    · rename_i row st' heq
      exfalso
      have := (getNext_some_state heq).2
      omega
  | succ n ih =>
    intro st stor acc unm hlen hf hinv
    rw [queryLoop]
    split
    · rename_i st' heq
      exact ⟨getNext_none_hasError hf heq, hinv⟩
    · rename_i row st' heq
      obtain ⟨hf', hlt⟩ := getNext_some_state heq
      have hlen' : st'.lines.length ≤ n := by omega
      split
      · exact ih st' stor acc (unm ++ [row]) hlen' hf' hinv
      · rename_i d stor' hlu
        exact ih st' stor' (acc ++ [(row.cid, d)]) unm hlen' hf'
          (lookup_preserves_inv hinv hlu)

/-- Hashing any list of defects into a well-formed queue keeps it
well-formed. -/
theorem foldl_hash_inv (filt : String → String) :
    ∀ (defects : List Defect) (stor : TDefByClass), QueueInv stor →
      QueueInv (defects.foldl (fun s d => DefQueue.hashDefect filt d s) stor) := by
  intro defects
  induction defects with
  | nil => exact fun stor h => h
  | cons d ds ih =>
    intro stor h
    exact ih _ (hashDefect_preserves_inv h filt d)

/-- C2 (counterexample): a run with no defects, no queries, no parse errors,
no unmatched query and no unclaimed defect still exits non-clean — the query
parser's error flag was set by the end-of-input `getline` failure. -/
theorem exit_status_cex :
    exitFailureOf (linkifyMain id [] [] false) = true ∧
    (linkifyMain id [] [] false).unmatched = [] ∧
    (linkifyMain id [] [] false).finalStor = [] ∧
    (linkifyMain id [] [] false).qDiags = [] ∧
    (linkifyMain id [] [] false).defError = false := by
  have hq : queryLoop id ⟨[], 0, false, false, []⟩ [] [] [] =
      ([], [], [], ⟨[], 0, true, true, []⟩) := by
    rw [queryLoop]
    split
    · rename_i st' heq
      have hg : DefQueryParser.getNext ⟨[], 0, false, false, []⟩ =
          (none, ⟨[], 0, true, true, []⟩) := rfl
      rw [hg] at heq
      injection heq with h1 h2
      rw [← h2]
    · rename_i row st' heq
      have hg : DefQueryParser.getNext ⟨[], 0, false, false, []⟩ =
          (none, ⟨[], 0, true, true, []⟩) := rfl
      rw [hg] at heq
      exact absurd heq (by simp)
  simp [linkifyMain, hq, exitFailureOf, DefQueue.isEmpty]

/-- C2 (amended): the exit status is `lookupError || qError || defError`,
where `lookupError` holds exactly when some decoded defect was never claimed
(the residual queue is non-empty); an unmatched query has no effect on it;
and because draining the query stream to end of input always sets the query
parser's error flag, every run that reaches the exit computation exits
non-clean. -/
theorem exit_status_amended (filt : String → String) (defects : List Defect)
    (qLines : List String) (defErr : Bool) :
    exitFailureOf (linkifyMain filt defects qLines defErr) =
      ((linkifyMain filt defects qLines defErr).lookupError ||
        (linkifyMain filt defects qLines defErr).qError ||
        (linkifyMain filt defects qLines defErr).defError) ∧
    (linkifyMain filt defects qLines defErr).qError = true ∧
    exitFailureOf (linkifyMain filt defects qLines defErr) = true ∧
    ((linkifyMain filt defects qLines defErr).lookupError = true ↔
      totalCount (linkifyMain filt defects qLines defErr).finalStor ≠ 0) := by
  have hinv0 : QueueInv ([] : TDefByClass) := by decide
  have hinv := foldl_hash_inv filt defects [] hinv0
  have hpost := queryLoop_post filt qLines.length ⟨qLines, 0, false, false, []⟩
    (defects.foldl (fun s d => DefQueue.hashDefect filt d s) []) [] []
    le_rfl rfl hinv
  refine ⟨rfl, ?_, ?_, ?_⟩
  · simp only [linkifyMain]
    exact hpost.1
  · simp only [linkifyMain, exitFailureOf]
    rw [hpost.1]
    simp
  · simp only [linkifyMain]
    have hie := inv_empty_iff hpost.2
    constructor
    · intro hl hc
      have hempty := hie.mpr hc
      rw [hempty] at hl
      simp at hl
    · intro hc
      cases hb : DefQueue.isEmpty (queryLoop filt ⟨qLines, 0, false, false, []⟩
          (defects.foldl (fun s d => DefQueue.hashDefect filt d s) []) []
          []).2.2.1 with
      | true => exact absurd (hie.mp hb) hc
      | false => rfl

end Csdiff
